import Mathlib

/-!
Verification of typerat/deduplicate: the path→digest index and its comparisons.

A shallow embedding of `deduplicate.go`.

* A Go `[]byte` is `Option (List Byte)`: `none` is the nil slice, `some []` an
  empty non-nil slice.  `bytes.Equal` and `%x` do not tell the two apart, the
  test `== nil` does.
* A Go `map[string]V` is an association list with pairwise distinct keys
  (`GoMap.WF`).  `range` visits the entries in list order; since any order of
  the entries is such a list, a statement about every list is a statement
  about every iteration order.
* Output written with `fmt.Print*` is returned as a list of records, in the
  order it is printed.
* Go strings are modelled by `String`.  Go orders strings byte-wise, which on
  valid UTF-8 is the lexicographic order of the code points used here.
* `strings.ToLower` is a parameter `toLower` of the population loop; the
  examples take `asciiLower`, with which it agrees on ASCII paths.
* The goroutines of `listFiles` hold the mutex for their whole body, so a run
  executes the task bodies one after the other in some order of the discovered
  paths: the population loop is a fold over the paths in that order.  The
  digests are given by `hashOf`, which stands for `hashFile` with the flag, the
  file system and SHA-256 of the run fixed.
* `log.Fatal` ends the process: the fallible functions return `Option`, `none`
  standing for the aborted run.
-/

namespace Deduplicate

/-- One byte. -/
abbrev Byte := Fin 256

/-- A Go byte slice; `none` is the nil slice. -/
abbrev Digest := Option (List Byte)

/-- A Go map with string keys, as the list of its entries. -/
abbrev GoMap (α : Type) := List (String × α)

/-- The keys of a map, in iteration order. -/
def GoMap.keys {α : Type} (m : GoMap α) : List String := m.map Prod.fst

/-- Keys of a Go map are pairwise distinct. -/
def GoMap.WF {α : Type} (m : GoMap α) : Prop := m.keys.Nodup

instance GoMap.decidableWF {α : Type} (m : GoMap α) : Decidable (GoMap.WF m) :=
  inferInstanceAs (Decidable (GoMap.keys m).Nodup)

/-- The comma-ok lookup `v, ok := m[k]`. -/
def GoMap.get? {α : Type} : GoMap α → String → Option α
  | [], _ => none
  | (k', v) :: t, k => if k' = k then some v else GoMap.get? t k

/-- The plain lookup `m[k]`, which yields the zero value for a missing key. -/
def GoMap.index {α : Type} (zero : α) (m : GoMap α) (k : String) : α :=
  (m.get? k).getD zero

/-- The assignment `m[k] = v`. -/
def GoMap.set {α : Type} : GoMap α → String → α → GoMap α
  | [], k, v => [(k, v)]
  | (k', v') :: t, k, v => if k' = k then (k, v) :: t else (k', v') :: GoMap.set t k v

/-- The type `FileList map[string][]byte`. -/
abbrev FileList := GoMap Digest

/-- The expression `f[k]` on a `FileList`: nil for a missing key. -/
def FileList.at (f : FileList) (k : String) : Digest := GoMap.index none f k

/-- The function `bytes.Equal`: same length and same bytes, a nil slice being empty. -/
def bytesEqual (x y : Digest) : Bool := decide (x.getD [] = y.getD [])

/-- The model of `sort.Strings`: increasing lexicographic order (the result of
sorting strings is the same for every sorting algorithm). -/
def sortStrings (s : List String) : List String :=
  s.insertionSort (fun x y => x.toList ≤ y.toList)

/-- A lower-case hexadecimal digit. -/
def hexDigit (n : Nat) : Char :=
  if n < 10 then Char.ofNat (48 + n) else Char.ofNat (87 + n)

/-- The formatting `fmt.Sprintf("%x", hash)` of a byte slice: two digits per byte. -/
def hex (d : Digest) : String :=
  String.mk ((d.getD []).flatMap fun b => [hexDigit (b.val / 16), hexDigit (b.val % 16)])

/-- The body of the first loop of `Duplicates`, on the entry `(file, hash)`. -/
def hashesStep (hashes : GoMap (List String)) (e : String × Digest) : GoMap (List String) :=
  let h := hex e.2
  GoMap.set hashes h (GoMap.index [] hashes h ++ [e.1])

/-- The first loop of `Duplicates`: the table from hex digest to the files having it. -/
def hashesOf (f : FileList) : GoMap (List String) :=
  f.foldl hashesStep []

/-- The method `FileList.Duplicates`: the groups it prints, in printing order. -/
def FileList.Duplicates (f : FileList) : List (List String) :=
  (hashesOf f).filterMap fun g => if g.2.length = 1 then none else some g.2

/-- The paths of `f` whose digest formats to the hex string `h`, in iteration order. -/
def pathsWith (f : FileList) (h : String) : List String :=
  (f.filter fun e => decide (hex e.2 = h)).map Prod.fst

/-- The paths of `f` whose digest is byte-wise equal to `d`, in iteration order. -/
def digestClass (f : FileList) (d : Digest) : List String :=
  (f.filter fun e => bytesEqual e.2 d).map Prod.fst

/-- The method `FileList.String`: the keys, sorted, joined by newlines. -/
def FileList.String (f : FileList) : String :=
  let s := f.foldl (fun s e => s ++ [e.1]) []
  "\n".intercalate (sortStrings s)

/-- A line `error in file %s (%x, %x)` printed by `Diff`, as its three arguments. -/
structure Mismatch where
  path : String
  digestA : Digest
  digestB : Digest
  deriving DecidableEq, Repr

/-- The text of a mismatch line. -/
def Mismatch.render (m : Mismatch) : String :=
  "error in file " ++ m.path ++ " (" ++ hex m.digestA ++ ", " ++ hex m.digestB ++ ")\n"

/-- The body of the first loop of `Diff`, on the entry `(f, h)` of `a`. -/
def diffStepA (a b : FileList) (acc : FileList × List Mismatch) (e : String × Digest) :
    FileList × List Mismatch :=
  if FileList.at b e.1 = none then
    (GoMap.set acc.1 e.1 e.2, acc.2)
  else if !bytesEqual (FileList.at a e.1) (FileList.at b e.1) then
    (acc.1, acc.2 ++ [⟨e.1, FileList.at a e.1, FileList.at b e.1⟩])
  else acc

/-- The body of the second loop of `Diff`, on the entry `(f, h)` of `b`. -/
def diffStepB (a : FileList) (bOnly : FileList) (e : String × Digest) : FileList :=
  if FileList.at a e.1 = none then GoMap.set bOnly e.1 e.2 else bOnly

/-- The result of `Diff`: the two returned maps and the mismatch lines printed. -/
structure DiffResult where
  aOnly : FileList
  bOnly : FileList
  mismatches : List Mismatch

/-- The function `Diff`. -/
def Diff (a b : FileList) : DiffResult :=
  let r := a.foldl (diffStepA a b) ([], [])
  let bOnly := b.foldl (diffStepB a) []
  ⟨r.1, bOnly, r.2⟩

/-- The mismatch line that the first loop of `Diff` prints on the entry `e` of
`a`, if it prints one. -/
def mismatchAt (a b : FileList) (e : String × Digest) : Option Mismatch :=
  if FileList.at b e.1 = none then none
  else if !bytesEqual (FileList.at a e.1) (FileList.at b e.1) then
    some ⟨e.1, FileList.at a e.1, FileList.at b e.1⟩
  else none

/-- The bytes of the literal `"no hash computed"`. -/
def noHashComputed : List Byte :=
  "no hash computed".toList.map fun c => Fin.ofNat c.toNat

/-- The digest `hashFile` returns when hashing is off. -/
def Skipped : Digest := some noHashComputed

/-- A digest produced by SHA-256: a non-nil slice of 32 bytes. -/
def Computed (d : Digest) : Prop := ∃ bs : List Byte, d = some bs ∧ bs.length = 32

/-- The function `hashFile`, given the flag `hash`, the file system (`readFile`
is `none` where `os.Open` or `io.Copy` fails) and SHA-256; `none` is `log.Fatal`. -/
def hashFile (hash : Bool) (readFile : String → Option (List Byte))
    (sha256 : List Byte → List Byte) (path : String) : Option Digest :=
  if !hash then some (some noHashComputed)
  else match readFile path with
    | none => none
    | some content => some (some (sha256 content))

/-- The state of the population loop of `listFiles`: `list2` and the
`path collision:` lines printed so far. -/
structure Population where
  list2 : FileList
  collisions : List String
  deriving DecidableEq

/-- The body of one hashing task of `listFiles`, run under the lock. -/
def populateTask (toLower : String → String) (hashOf : String → Option Digest)
    (root : String) (st : Population) (path : String) : Option Population :=
  match hashOf (root ++ path) with
  | none => none
  | some hash =>
    let path := toLower path
    let collisions :=
      if (GoMap.get? st.list2 path).isSome then st.collisions ++ [path] else st.collisions
    some ⟨GoMap.set st.list2 path hash, collisions⟩

/-- The population loop of `listFiles` over the discovered paths, in the order
in which the tasks take the lock. -/
def populate (toLower : String → String) (hashOf : String → Option Digest)
    (root : String) (paths : List String) : Option Population :=
  paths.foldlM (populateTask toLower hashOf root) ⟨[], []⟩

/-- The collision warnings as the specification words them: going through the
paths in processing order, one warning naming the lower-cased path for each path
whose lower-cased form is that of a path seen before (`seen` holds the lower-cased
forms met so far). -/
def warningsFor (toLower : String → String) : List String → List String → List String
  | _, [] => []
  | seen, p :: t =>
    (if toLower p ∈ seen then [toLower p] else []) ++ warningsFor toLower (toLower p :: seen) t

/-- An example run of the hashing: the file `/r/A.txt` has the digest of 32 bytes
`1`, every other file the digest of 32 bytes `2`. -/
def exampleHash (path : String) : Option Digest :=
  if path = "/r/A.txt" then some (some (List.replicate 32 1))
  else some (some (List.replicate 32 2))

/-- Lower-casing of the letters `A`-`Z` only.  It agrees with `strings.ToLower` on
ASCII strings and not beyond (`strings.ToLower` also folds non-ASCII letters); it
instantiates the parameter `toLower` in the examples, all on ASCII paths, and no
theorem about the loop depends on it. -/
def asciiLower (s : String) : String := String.mk (s.toList.map Char.toLower)

/-! ## Go maps -/

theorem GoMap.get?_set {α : Type} (m : GoMap α) (k k' : String) (v : α) :
    GoMap.get? (GoMap.set m k v) k' = if k = k' then some v else GoMap.get? m k' := by
  induction m with
  | nil => simp [GoMap.set, GoMap.get?]
  | cons e t ih =>
    obtain ⟨k0, v0⟩ := e
    by_cases h0 : k0 = k
    · subst h0
      by_cases h1 : k0 = k' <;> simp [GoMap.set, GoMap.get?, h1]
    · by_cases h1 : k0 = k'
      · subst h1
        have h2 : ¬ k = k0 := fun h => h0 h.symm
        simp [GoMap.set, GoMap.get?, h0, h2]
      · simp [GoMap.set, GoMap.get?, h0, h1, ih]

theorem GoMap.get?_isSome_iff {α : Type} (m : GoMap α) (k : String) :
    (GoMap.get? m k).isSome ↔ k ∈ GoMap.keys m := by
  induction m with
  | nil => simp [GoMap.get?, GoMap.keys]
  | cons e t ih =>
    obtain ⟨k0, v0⟩ := e
    by_cases h0 : k0 = k
    · simp [GoMap.get?, GoMap.keys, h0]
    · have h1 : ¬ k = k0 := fun h => h0 h.symm
      simp only [GoMap.keys] at ih
      simp [GoMap.get?, GoMap.keys, h0, h1, ih]

theorem GoMap.get?_eq_none_iff {α : Type} (m : GoMap α) (k : String) :
    GoMap.get? m k = none ↔ k ∉ GoMap.keys m := by
  rw [← GoMap.get?_isSome_iff]
  cases GoMap.get? m k <;> simp

theorem GoMap.mem_of_get? {α : Type} (m : GoMap α) (k : String) (v : α)
    (h : GoMap.get? m k = some v) : (k, v) ∈ m := by
  induction m with
  | nil => simp [GoMap.get?] at h
  | cons e t ih =>
    obtain ⟨k0, v0⟩ := e
    by_cases h0 : k0 = k
    · simp [GoMap.get?, h0] at h
      simp [h0, h]
    · simp [GoMap.get?, h0] at h
      exact List.mem_cons_of_mem _ (ih h)

theorem GoMap.get?_of_mem {α : Type} (m : GoMap α) (hm : GoMap.WF m) (k : String) (v : α)
    (h : (k, v) ∈ m) : GoMap.get? m k = some v := by
  induction m with
  | nil => simp at h
  | cons e t ih =>
    obtain ⟨k0, v0⟩ := e
    simp only [GoMap.WF, GoMap.keys, List.map_cons, List.nodup_cons] at hm
    rcases List.mem_cons.1 h with h1 | h1
    · cases h1
      simp [GoMap.get?]
    · have hk : k ∈ t.map Prod.fst := List.mem_map.2 ⟨(k, v), h1, rfl⟩
      have h0 : ¬ k0 = k := fun h2 => hm.1 (h2 ▸ hk)
      simp only [GoMap.get?, h0, if_false]
      exact ih hm.2 h1

theorem GoMap.mem_keys_set {α : Type} (m : GoMap α) (k k' : String) (v : α) :
    k' ∈ GoMap.keys (GoMap.set m k v) ↔ k' = k ∨ k' ∈ GoMap.keys m := by
  rw [← GoMap.get?_isSome_iff, ← GoMap.get?_isSome_iff, GoMap.get?_set]
  by_cases h : k = k'
  · simp [h]
  · have h1 : ¬ k' = k := fun h2 => h h2.symm
    simp [h, h1]

theorem GoMap.WF_set {α : Type} (m : GoMap α) (k : String) (v : α) (hm : GoMap.WF m) :
    GoMap.WF (GoMap.set m k v) := by
  induction m with
  | nil => simp [GoMap.set, GoMap.WF, GoMap.keys]
  | cons e t ih =>
    obtain ⟨k0, v0⟩ := e
    simp only [GoMap.WF, GoMap.keys, List.map_cons, List.nodup_cons] at hm
    by_cases h0 : k0 = k
    · subst h0
      simpa [GoMap.set, GoMap.WF, GoMap.keys] using hm
    · simp only [GoMap.set, h0, if_false, GoMap.WF, GoMap.keys, List.map_cons, List.nodup_cons]
      refine ⟨fun hk => ?_, ih hm.2⟩
      rcases (GoMap.mem_keys_set t k k0 v).1 hk with h1 | h1
      · exact h0 h1
      · exact hm.1 h1

theorem GoMap.length_set {α : Type} (m : GoMap α) (k : String) (v : α) :
    (GoMap.set m k v).length = if (GoMap.get? m k).isSome then m.length else m.length + 1 := by
  induction m with
  | nil => simp [GoMap.set, GoMap.get?]
  | cons e t ih =>
    obtain ⟨k0, v0⟩ := e
    by_cases h0 : k0 = k
    · simp [GoMap.set, GoMap.get?, h0]
    · simp only [GoMap.set, GoMap.get?, h0, if_false, List.length_cons, ih]
      split <;> rfl

theorem at_eq_none_iff (f : FileList) (k : String) :
    FileList.at f k = none ↔ k ∉ GoMap.keys f ∨ GoMap.get? f k = some none := by
  rw [← GoMap.get?_eq_none_iff]
  unfold FileList.at GoMap.index
  cases h : GoMap.get? f k with
  | none => simp
  | some d => cases d <;> simp

/-! ## The two loops of `Diff` -/

theorem foldl_diffStepA_keys (a b : FileList) (l : List (String × Digest))
    (acc : FileList × List Mismatch) (k : String) :
    k ∈ GoMap.keys (l.foldl (diffStepA a b) acc).1 ↔
      k ∈ GoMap.keys acc.1 ∨ (k ∈ GoMap.keys l ∧ FileList.at b k = none) := by
  induction l generalizing acc with
  | nil => simp [GoMap.keys]
  | cons e t ih =>
    rw [List.foldl_cons, ih]
    by_cases h : FileList.at b e.1 = none
    · simp only [diffStepA, h, if_true, GoMap.mem_keys_set]
      simp only [GoMap.keys, List.map_cons, List.mem_cons]
      constructor
      · rintro ((h1 | h1) | h1)
        · exact Or.inr ⟨Or.inl h1, h1 ▸ h⟩
        · exact Or.inl h1
        · exact Or.inr ⟨Or.inr h1.1, h1.2⟩
      · rintro (h1 | ⟨h1 | h1, h2⟩)
        · exact Or.inl (Or.inr h1)
        · exact Or.inl (Or.inl h1)
        · exact Or.inr ⟨h1, h2⟩
    · have hacc : (diffStepA a b acc e).1 = acc.1 := by
        simp only [diffStepA, h, if_false]
        split <;> rfl
      rw [hacc]
      simp only [GoMap.keys, List.map_cons, List.mem_cons]
      constructor
      · rintro (h1 | h1)
        · exact Or.inl h1
        · exact Or.inr ⟨Or.inr h1.1, h1.2⟩
      · rintro (h1 | ⟨h1 | h1, h2⟩)
        · exact Or.inl h1
        · exact absurd (h1 ▸ h2) h
        · exact Or.inr ⟨h1, h2⟩

theorem foldl_diffStepA_WF (a b : FileList) (l : List (String × Digest))
    (acc : FileList × List Mismatch) (h : GoMap.WF acc.1) :
    GoMap.WF (l.foldl (diffStepA a b) acc).1 := by
  induction l generalizing acc with
  | nil => simpa using h
  | cons e t ih =>
    rw [List.foldl_cons]
    apply ih
    unfold diffStepA
    split
    · exact GoMap.WF_set _ _ _ h
    · split <;> exact h

theorem foldl_diffStepA_mismatches (a b : FileList) (l : List (String × Digest))
    (acc : FileList × List Mismatch) :
    (l.foldl (diffStepA a b) acc).2 = acc.2 ++ l.filterMap (mismatchAt a b) := by
  induction l generalizing acc with
  | nil => simp
  | cons e t ih =>
    rw [List.foldl_cons, ih]
    unfold diffStepA mismatchAt
    by_cases h : FileList.at b e.1 = none
    · simp [List.filterMap_cons, mismatchAt, h]
    · by_cases h2 : bytesEqual (FileList.at a e.1) (FileList.at b e.1) = true
      · simp [List.filterMap_cons, mismatchAt, h, h2]
      · simp [List.filterMap_cons, mismatchAt, h, h2]

theorem foldl_diffStepB_keys (a : FileList) (l : List (String × Digest))
    (acc : FileList) (k : String) :
    k ∈ GoMap.keys (l.foldl (diffStepB a) acc) ↔
      k ∈ GoMap.keys acc ∨ (k ∈ GoMap.keys l ∧ FileList.at a k = none) := by
  induction l generalizing acc with
  | nil => simp [GoMap.keys]
  | cons e t ih =>
    rw [List.foldl_cons, ih]
    by_cases h : FileList.at a e.1 = none
    · simp only [diffStepB, h, if_true, GoMap.mem_keys_set]
      simp only [GoMap.keys, List.map_cons, List.mem_cons]
      constructor
      · rintro ((h1 | h1) | h1)
        · exact Or.inr ⟨Or.inl h1, h1 ▸ h⟩
        · exact Or.inl h1
        · exact Or.inr ⟨Or.inr h1.1, h1.2⟩
      · rintro (h1 | ⟨h1 | h1, h2⟩)
        · exact Or.inl (Or.inr h1)
        · exact Or.inl (Or.inl h1)
        · exact Or.inr ⟨h1, h2⟩
    · simp only [diffStepB, h, if_false]
      simp only [GoMap.keys, List.map_cons, List.mem_cons]
      constructor
      · rintro (h1 | h1)
        · exact Or.inl h1
        · exact Or.inr ⟨Or.inr h1.1, h1.2⟩
      · rintro (h1 | ⟨h1 | h1, h2⟩)
        · exact Or.inl h1
        · exact absurd (h1 ▸ h2) h
        · exact Or.inr ⟨h1, h2⟩

theorem foldl_diffStepB_WF (a : FileList) (l : List (String × Digest))
    (acc : FileList) (h : GoMap.WF acc) :
    GoMap.WF (l.foldl (diffStepB a) acc) := by
  induction l generalizing acc with
  | nil => simpa using h
  | cons e t ih =>
    rw [List.foldl_cons]
    apply ih
    unfold diffStepB
    split
    · exact GoMap.WF_set _ _ _ h
    · exact h

theorem Diff_mismatches_eq (a b : FileList) :
    (Diff a b).mismatches = a.filterMap (mismatchAt a b) := by
  simp [Diff, foldl_diffStepA_mismatches]

theorem mismatchAt_path (a b : FileList) (e : String × Digest) (m : Mismatch)
    (h : mismatchAt a b e = some m) : m.path = e.1 := by
  unfold mismatchAt at h
  split at h
  · cases h
  · split at h
    · cases h; rfl
    · cases h

theorem filter_mismatchAt_of_not_mem (a b : FileList) (l : List (String × Digest)) (p : String)
    (h : p ∉ GoMap.keys l) :
    (l.filterMap (mismatchAt a b)).filter (fun m => decide (m.path = p)) = [] := by
  rw [List.filter_eq_nil_iff]
  intro m hm
  obtain ⟨e, he, hme⟩ := List.mem_filterMap.1 hm
  have hp := mismatchAt_path a b e m hme
  have hk : e.1 ∈ GoMap.keys l := List.mem_map.2 ⟨e, he, rfl⟩
  simp only [decide_eq_true_eq]
  intro h1
  exact h (h1 ▸ hp ▸ hk)

theorem filter_mismatchAt_of_get? (a b : FileList) (l : List (String × Digest))
    (hl : GoMap.WF l) (p : String) (d : Digest) (h : GoMap.get? l p = some d) :
    (l.filterMap (mismatchAt a b)).filter (fun m => decide (m.path = p)) =
      (mismatchAt a b (p, d)).toList := by
  induction l with
  | nil => simp [GoMap.get?] at h
  | cons e t ih =>
    obtain ⟨k0, v0⟩ := e
    simp only [GoMap.WF, GoMap.keys, List.map_cons, List.nodup_cons] at hl
    by_cases h0 : k0 = p
    · subst h0
      simp only [GoMap.get?, if_true, Option.some.injEq] at h
      subst h
      have ht := filter_mismatchAt_of_not_mem a b t k0 hl.1
      cases hm : mismatchAt a b (k0, v0) with
      | none => simp [List.filterMap_cons, hm, ht]
      | some m =>
        have hp := mismatchAt_path a b (k0, v0) m hm
        simp only [List.filterMap_cons, hm, List.filter_cons, hp, decide_True, if_true, ht,
          Option.toList]
    · simp only [GoMap.get?, h0, if_false] at h
      cases hm : mismatchAt a b (k0, v0) with
      | none => simpa [List.filterMap_cons, hm] using ih hl.2 h
      | some m =>
        have hp := mismatchAt_path a b (k0, v0) m hm
        have hne : ¬ m.path = p := by rw [hp]; exact h0
        simpa [List.filterMap_cons, hm, List.filter_cons, hne] using ih hl.2 h

theorem at_of_get? (f : FileList) (k : String) (d : Digest) (h : GoMap.get? f k = some d) :
    FileList.at f k = d := by
  simp [FileList.at, GoMap.index, h]

theorem bytesEqual_self (d : Digest) : bytesEqual d d = true := by
  simp [bytesEqual]

theorem hashFile_disabled (readFile : String → Option (List Byte))
    (sha256 : List Byte → List Byte) (path : String) :
    hashFile false readFile sha256 path = some Skipped := by
  simp [hashFile, Skipped]

/-! ## Claims about `Diff` -/

/-- C1 (amended): the key set of `aOnly` is exactly the keys of `a` for which
`b[k] == nil`, that is, the keys of `a` that are absent from `b` or stored in `b`
with a nil digest; symmetrically for `bOnly`.  So, when `b` (resp. `a`) stores no
nil digest, `aOnly` (resp. `bOnly`) has exactly the keys present on its side and
absent from the other.  Both results are maps (no key twice). -/
theorem Diff_only_keys (a b : FileList) :
    (∀ k, k ∈ GoMap.keys (Diff a b).aOnly ↔
        k ∈ GoMap.keys a ∧ (k ∉ GoMap.keys b ∨ GoMap.get? b k = some none)) ∧
    (∀ k, k ∈ GoMap.keys (Diff a b).bOnly ↔
        k ∈ GoMap.keys b ∧ (k ∉ GoMap.keys a ∨ GoMap.get? a k = some none)) ∧
    ((∀ e ∈ b, e.2 ≠ none) →
        ∀ k, k ∈ GoMap.keys (Diff a b).aOnly ↔ k ∈ GoMap.keys a ∧ k ∉ GoMap.keys b) ∧
    ((∀ e ∈ a, e.2 ≠ none) →
        ∀ k, k ∈ GoMap.keys (Diff a b).bOnly ↔ k ∈ GoMap.keys b ∧ k ∉ GoMap.keys a) ∧
    GoMap.WF (Diff a b).aOnly ∧ GoMap.WF (Diff a b).bOnly := by
  have hA : ∀ k, k ∈ GoMap.keys (Diff a b).aOnly ↔
      k ∈ GoMap.keys a ∧ (k ∉ GoMap.keys b ∨ GoMap.get? b k = some none) := by
    intro k
    simp only [Diff, foldl_diffStepA_keys, at_eq_none_iff]
    simp [GoMap.keys]
  have hB : ∀ k, k ∈ GoMap.keys (Diff a b).bOnly ↔
      k ∈ GoMap.keys b ∧ (k ∉ GoMap.keys a ∨ GoMap.get? a k = some none) := by
    intro k
    simp only [Diff, foldl_diffStepB_keys, at_eq_none_iff]
    simp [GoMap.keys]
  have hnil : ∀ (f : FileList) (k : String), (∀ e ∈ f, e.2 ≠ none) →
      ¬ GoMap.get? f k = some none := fun f k hf h =>
    hf (k, none) (GoMap.mem_of_get? f k none h) rfl
  refine ⟨hA, hB, ?_, ?_, ?_, ?_⟩
  · intro hb k
    rw [hA]
    constructor
    · rintro ⟨h1, h2 | h2⟩
      · exact ⟨h1, h2⟩
      · exact absurd h2 (hnil b k hb)
    · rintro ⟨h1, h2⟩
      exact ⟨h1, Or.inl h2⟩
  · intro ha k
    rw [hB]
    constructor
    · rintro ⟨h1, h2 | h2⟩
      · exact ⟨h1, h2⟩
      · exact absurd h2 (hnil a k ha)
    · rintro ⟨h1, h2⟩
      exact ⟨h1, Or.inl h2⟩
  · exact foldl_diffStepA_WF a b a ([], []) (by simp [GoMap.WF, GoMap.keys])
  · exact foldl_diffStepB_WF a b [] (by simp [GoMap.WF, GoMap.keys])

/-- C1 (as stated) fails: with `a = {x: [1]}` and `b = {x: nil}` the key `x` is
present in `b`, yet `aOnly = {x: [1]}`. -/
theorem Diff_only_keys_counterexample :
    "x" ∈ GoMap.keys ([("x", none)] : FileList) ∧
    (Diff [("x", some [1])] [("x", none)]).aOnly = [("x", some [1])] := by
  decide

/-- C2: for a path `p` present in both indexes with `Computed` digests `da` and
`db`, `Diff` prints exactly one mismatch line for `p`, carrying `(p, da, db)`, when
the digests differ, and none for `p` when they are equal. -/
theorem Diff_mismatch_computed (a b : FileList) (p : String) (da db : Digest)
    (hwf : GoMap.WF a) (ha : GoMap.get? a p = some da) (hb : GoMap.get? b p = some db)
    (hca : Computed da) (hcb : Computed db) :
    (da ≠ db → (Diff a b).mismatches.filter (fun m => decide (m.path = p)) = [⟨p, da, db⟩]) ∧
    (da = db → (Diff a b).mismatches.filter (fun m => decide (m.path = p)) = []) := by
  obtain ⟨x, rfl, -⟩ := hca
  obtain ⟨y, rfl, -⟩ := hcb
  rw [Diff_mismatches_eq, filter_mismatchAt_of_get? a b a hwf p _ ha]
  have h1 : FileList.at a p = some x := at_of_get? a p _ ha
  have h2 : FileList.at b p = some y := at_of_get? b p _ hb
  constructor
  · intro hne
    have hxy : ¬ x = y := fun h => hne (by rw [h])
    simp [mismatchAt, h1, h2, bytesEqual, hxy]
  · intro heq
    have hxy : x = y := Option.some.inj heq
    simp [mismatchAt, h1, h2, bytesEqual, hxy]

/-- C2 at `a = {x: 32 bytes 0}`, `b = {x: 32 bytes 1}`: one line, for `x`. -/
theorem Diff_mismatch_computed_witness :
    (Diff [("x", some (List.replicate 32 0))] [("x", some (List.replicate 32 1))]).mismatches.filter
        (fun m => decide (m.path = "x")) =
      [⟨"x", some (List.replicate 32 0), some (List.replicate 32 1)⟩] :=
  (Diff_mismatch_computed [("x", some (List.replicate 32 0))] [("x", some (List.replicate 32 1))]
    "x" (some (List.replicate 32 0)) (some (List.replicate 32 1))
    (by decide) (by decide) (by decide) ⟨_, rfl, by decide⟩ ⟨_, rfl, by decide⟩).1 (by decide)

/-- C5 (amended): `Diff(T, T)` prints no mismatch, and both `aOnly` and `bOnly`
have as keys exactly the keys of `T` stored with a nil digest; so both are empty
when `T` stores no nil digest. -/
theorem Diff_self (T : FileList) :
    (Diff T T).mismatches = [] ∧
    (∀ k, k ∈ GoMap.keys (Diff T T).aOnly ↔ GoMap.get? T k = some none) ∧
    (∀ k, k ∈ GoMap.keys (Diff T T).bOnly ↔ GoMap.get? T k = some none) ∧
    ((∀ e ∈ T, e.2 ≠ none) → (Diff T T).aOnly = [] ∧ (Diff T T).bOnly = []) := by
  have hkey : ∀ k, (k ∈ GoMap.keys T ∧ FileList.at T k = none) ↔ GoMap.get? T k = some none := by
    intro k
    rw [at_eq_none_iff]
    constructor
    · rintro ⟨h1, h2 | h2⟩
      · exact absurd h1 h2
      · exact h2
    · intro h
      refine ⟨?_, Or.inr h⟩
      rw [← GoMap.get?_isSome_iff, h]
      rfl
  have hA : ∀ k, k ∈ GoMap.keys (Diff T T).aOnly ↔ GoMap.get? T k = some none := by
    intro k
    rw [← hkey]
    show k ∈ GoMap.keys (List.foldl (diffStepA T T) ([], []) T).1 ↔ _
    rw [foldl_diffStepA_keys]
    simp [GoMap.keys]
  have hB : ∀ k, k ∈ GoMap.keys (Diff T T).bOnly ↔ GoMap.get? T k = some none := by
    intro k
    rw [← hkey]
    show k ∈ GoMap.keys (List.foldl (diffStepB T) [] T) ↔ _
    rw [foldl_diffStepB_keys]
    simp [GoMap.keys]
  refine ⟨?_, hA, hB, ?_⟩
  · rw [Diff_mismatches_eq, List.filterMap_eq_nil_iff]
    intro e _
    simp [mismatchAt, bytesEqual_self]
  · intro hT
    have hno : ∀ k, ¬ GoMap.get? T k = some none := fun k h =>
      hT (k, none) (GoMap.mem_of_get? T k none h) rfl
    have hnil : ∀ f : FileList, (∀ k, ¬ k ∈ GoMap.keys f) → f = [] := by
      intro f hf
      cases f with
      | nil => rfl
      | cons e t => exact absurd (by simp [GoMap.keys]) (hf e.1)
    exact ⟨hnil _ fun k hk => hno k ((hA k).1 hk), hnil _ fun k hk => hno k ((hB k).1 hk)⟩

/-- C5 (as stated) fails: for `T = {x: nil}`, `Diff(T, T)` returns `aOnly` and
`bOnly` both equal to `{x: nil}`. -/
theorem Diff_self_counterexample :
    (Diff [("x", none)] [("x", none)]).aOnly = [("x", none)] ∧
    (Diff [("x", none)] [("x", none)]).bOnly = [("x", none)] := by
  decide

/-- C6 (amended): `Diff` treats the `Skipped` marker as ordinary bytes.  For a
path `p` present in both indexes with digests `da` in `a` and `db` in `b`, it prints
one mismatch line `(p, da, db)` unless `db` is nil or the two are byte-wise equal,
whether or not one of them is `Skipped`; so no mismatch is printed for `p` when
both are `Skipped`. -/
theorem Diff_mismatch_skipped (a b : FileList) (p : String) (da db : Digest)
    (hwf : GoMap.WF a) (ha : GoMap.get? a p = some da) (hb : GoMap.get? b p = some db) :
    (Diff a b).mismatches.filter (fun m => decide (m.path = p)) =
        (if db = none ∨ bytesEqual da db = true then [] else [⟨p, da, db⟩]) ∧
    (da = Skipped → db = Skipped →
      (Diff a b).mismatches.filter (fun m => decide (m.path = p)) = []) := by
  have h1 : FileList.at a p = da := at_of_get? a p _ ha
  have h2 : FileList.at b p = db := at_of_get? b p _ hb
  have key : (Diff a b).mismatches.filter (fun m => decide (m.path = p)) =
      (if db = none ∨ bytesEqual da db = true then [] else [⟨p, da, db⟩]) := by
    rw [Diff_mismatches_eq, filter_mismatchAt_of_get? a b a hwf p _ ha]
    by_cases hn : db = none
    · simp [mismatchAt, h1, h2, hn]
    · by_cases he : bytesEqual da db = true
      · simp [mismatchAt, h1, h2, hn, he]
      · simp [mismatchAt, h1, h2, hn, he]
  refine ⟨key, ?_⟩
  intro hda hdb
  rw [key, hda, hdb, bytesEqual_self]
  simp

/-- C6 at `a = {x: Skipped}`, `b = {x: Skipped}`: no mismatch line. -/
theorem Diff_mismatch_skipped_witness :
    (Diff [("x", Skipped)] [("x", Skipped)]).mismatches.filter
      (fun m => decide (m.path = "x")) = [] :=
  (Diff_mismatch_skipped [("x", Skipped)] [("x", Skipped)] "x" Skipped Skipped
    (by decide) (by decide) (by decide)).2 rfl rfl

/-- C6 (as stated) fails: with `a = {x: Skipped}` and `b = {x: 32 bytes 0}` a
mismatch line is printed for `x`. -/
theorem Diff_mismatch_skipped_counterexample :
    (Diff [("x", Skipped)] [("x", some (List.replicate 32 0))]).mismatches =
      [⟨"x", Skipped, some (List.replicate 32 0)⟩] := by
  decide

/-- C10: when every digest stored in `a` and in `b` is the marker that `hashFile`
returns with hashing off, `Diff` prints no mismatch line at all. -/
theorem Diff_hashing_disabled (a b : FileList)
    (readFile : String → Option (List Byte)) (sha256 : List Byte → List Byte)
    (ha : ∀ e ∈ a, ∃ path, some e.2 = hashFile false readFile sha256 path)
    (hb : ∀ e ∈ b, ∃ path, some e.2 = hashFile false readFile sha256 path) :
    (Diff a b).mismatches = [] := by
  have ha2 : ∀ e ∈ a, e.2 = Skipped := fun e he => by
    obtain ⟨path, h⟩ := ha e he
    rw [hashFile_disabled] at h
    exact Option.some.inj h
  have hb2 : ∀ e ∈ b, e.2 = Skipped := fun e he => by
    obtain ⟨path, h⟩ := hb e he
    rw [hashFile_disabled] at h
    exact Option.some.inj h
  rw [Diff_mismatches_eq, List.filterMap_eq_nil_iff]
  intro e he
  have hka : e.1 ∈ GoMap.keys a := List.mem_map.2 ⟨e, he, rfl⟩
  have hA : FileList.at a e.1 = Skipped := by
    cases h : GoMap.get? a e.1 with
    | none => exact absurd hka ((GoMap.get?_eq_none_iff a e.1).1 h)
    | some d =>
      rw [at_of_get? a e.1 d h]
      exact ha2 (e.1, d) (GoMap.mem_of_get? a e.1 d h)
  cases h : GoMap.get? b e.1 with
  | none => simp [mismatchAt, FileList.at, GoMap.index, h]
  | some d =>
    have hB : FileList.at b e.1 = Skipped := by
      rw [at_of_get? b e.1 d h]
      exact hb2 (e.1, d) (GoMap.mem_of_get? b e.1 d h)
    simp [mismatchAt, hA, hB, bytesEqual_self]

/-- C10 at `a = {x: Skipped, y: Skipped}`, `b = {x: Skipped}`. -/
theorem Diff_hashing_disabled_witness :
    (Diff [("x", Skipped), ("y", Skipped)] [("x", Skipped)]).mismatches = [] :=
  Diff_hashing_disabled [("x", Skipped), ("y", Skipped)] [("x", Skipped)]
    (fun _ => none) (fun c => c)
    (fun e he => ⟨"", by
      simp only [List.mem_cons, List.mem_singleton, List.not_mem_nil, or_false] at he
      rcases he with rfl | rfl <;> simp [hashFile, Skipped]⟩)
    (fun e he => ⟨"", by
      simp only [List.mem_cons, List.mem_singleton, List.not_mem_nil, or_false] at he
      rcases he with rfl
      simp [hashFile, Skipped]⟩)

/-! ## `FileList.String` -/

theorem foldl_append_keys (l : List (String × Digest)) (acc : List String) :
    l.foldl (fun s e => s ++ [e.1]) acc = acc ++ GoMap.keys l := by
  induction l generalizing acc with
  | nil => simp [GoMap.keys]
  | cons e t ih => simp [List.foldl_cons, ih, GoMap.keys]

theorem String_eq (f : FileList) :
    FileList.String f = "\n".intercalate (sortStrings (GoMap.keys f)) := by
  simp [FileList.String, foldl_append_keys]

theorem sortStrings_sorted (s : List String) : (sortStrings s).Sorted (· ≤ ·) := by
  haveI : IsTotal String (fun x y => x.toList ≤ y.toList) :=
    ⟨fun x y => by
      rw [← String.le_iff_toList_le, ← String.le_iff_toList_le]
      exact le_total x y⟩
  haveI : IsTrans String (fun x y => x.toList ≤ y.toList) :=
    ⟨fun x y z => by
      rw [← String.le_iff_toList_le, ← String.le_iff_toList_le, ← String.le_iff_toList_le]
      exact le_trans⟩
  have h := List.sorted_insertionSort (fun x y : String => x.toList ≤ y.toList) s
  exact List.Pairwise.imp (fun hab => String.le_iff_toList_le.2 hab) h

theorem sortStrings_perm (s : List String) : (sortStrings s).Perm s :=
  List.perm_insertionSort (fun x y : String => x.toList ≤ y.toList) s

theorem sortStrings_congr (s t : List String) (h : s.Perm t) : sortStrings s = sortStrings t :=
  List.eq_of_perm_of_sorted ((sortStrings_perm s).trans (h.trans (sortStrings_perm t).symm))
    (sortStrings_sorted s) (sortStrings_sorted t)

/-- C4: for a `FileList` `f`, `f.String()` is the join with `"\n"` of a list `s`
that holds every key of `f` exactly once in strictly ascending order (so the empty
string for the empty map), and two orders of the same entries give the same
string. -/
theorem String_sorted_listing (f : FileList) (hwf : GoMap.WF f) :
    (∃ s : List String, FileList.String f = "\n".intercalate s ∧
      s.Sorted (· < ·) ∧ s.Perm (GoMap.keys f) ∧ ∀ k, s.count k = if k ∈ GoMap.keys f then 1 else 0) ∧
    (f = [] → FileList.String f = "") ∧
    (∀ f' : FileList, f'.Perm f → FileList.String f' = FileList.String f) := by
  refine ⟨⟨sortStrings (GoMap.keys f), String_eq f, ?_, sortStrings_perm _, ?_⟩, ?_, ?_⟩
  · exact (sortStrings_sorted _).lt_of_le ((sortStrings_perm _).nodup_iff.2 hwf)
  · intro k
    rw [(sortStrings_perm (GoMap.keys f)).count_eq]
    by_cases hk : k ∈ GoMap.keys f
    · rw [if_pos hk]
      exact List.count_eq_one_of_mem hwf hk
    · rw [if_neg hk]
      exact List.count_eq_zero_of_not_mem hk
  · intro h
    subst h
    rfl
  · intro f' h
    rw [String_eq, String_eq, sortStrings_congr (GoMap.keys f') (GoMap.keys f) (h.map Prod.fst)]

/-- C4 at `f = {b, a}`. -/
theorem String_sorted_listing_witness :
    FileList.String [("a", none), ("b", none)] = FileList.String [("b", none), ("a", none)] :=
  (String_sorted_listing [("b", none), ("a", none)] (by decide)).2.2 [("a", none), ("b", none)]
    (List.Perm.swap _ _ _)

theorem String_example : FileList.String [("b", none), ("a", none)] = "a\nb" := by decide

/-! ## `FileList.Duplicates` -/

theorem hexDigit_injective : ∀ m n : Fin 16, hexDigit m.val = hexDigit n.val → m = n := by
  decide

theorem hexByte_injective (a b : Byte)
    (h1 : hexDigit (a.val / 16) = hexDigit (b.val / 16))
    (h2 : hexDigit (a.val % 16) = hexDigit (b.val % 16)) : a = b := by
  have ha : a.val / 16 < 16 := by omega
  have hb : b.val / 16 < 16 := by omega
  have e1 := hexDigit_injective ⟨a.val / 16, ha⟩ ⟨b.val / 16, hb⟩ h1
  have e2 := hexDigit_injective ⟨a.val % 16, Nat.mod_lt _ (by decide)⟩
    ⟨b.val % 16, Nat.mod_lt _ (by decide)⟩ h2
  simp only [Fin.mk.injEq] at e1 e2
  apply Fin.ext
  omega

theorem hexBytes_injective (x y : List Byte)
    (h : (x.flatMap fun b => [hexDigit (b.val / 16), hexDigit (b.val % 16)]) =
      y.flatMap fun b => [hexDigit (b.val / 16), hexDigit (b.val % 16)]) : x = y := by
  induction x generalizing y with
  | nil =>
    cases y with
    | nil => rfl
    | cons b t => simp [List.flatMap_cons] at h
  | cons a s ih =>
    cases y with
    | nil => simp [List.flatMap_cons] at h
    | cons b t =>
      simp only [List.flatMap_cons, List.cons_append, List.nil_append, List.cons.injEq] at h
      rw [hexByte_injective a b h.1 h.2.1, ih t h.2.2]

theorem hex_eq_iff (d d' : Digest) : hex d = hex d' ↔ bytesEqual d d' = true := by
  simp only [hex, bytesEqual, decide_eq_true_eq]
  exact ⟨fun h => hexBytes_injective _ _ (congrArg String.data h), fun h => by rw [h]⟩

theorem pathsWith_hex (f : FileList) (d : Digest) : pathsWith f (hex d) = digestClass f d := by
  unfold pathsWith digestClass
  congr 1
  apply List.filter_congr
  intro e _
  rw [Bool.eq_iff_iff, decide_eq_true_eq]
  exact hex_eq_iff e.2 d

theorem pathsWith_cons (e : String × Digest) (t : List (String × Digest)) (h : String) :
    pathsWith (e :: t) h = if hex e.2 = h then e.1 :: pathsWith t h else pathsWith t h := by
  unfold pathsWith
  by_cases he : hex e.2 = h <;> simp [List.filter_cons, he]

theorem foldl_hashesStep_WF (l : List (String × Digest)) (acc : GoMap (List String))
    (h : GoMap.WF acc) : GoMap.WF (l.foldl hashesStep acc) := by
  induction l generalizing acc with
  | nil => simpa using h
  | cons e t ih =>
    rw [List.foldl_cons]
    exact ih _ (GoMap.WF_set _ _ _ h)

theorem foldl_hashesStep_get? (l : List (String × Digest)) (acc : GoMap (List String))
    (h : String) :
    GoMap.get? (l.foldl hashesStep acc) h =
      if pathsWith l h = [] then GoMap.get? acc h
      else some (GoMap.index [] acc h ++ pathsWith l h) := by
  induction l generalizing acc with
  | nil => simp [pathsWith]
  | cons e t ih =>
    rw [List.foldl_cons, ih, pathsWith_cons]
    by_cases he : hex e.2 = h
    · subst he
      by_cases ht : pathsWith t (hex e.2) = []
      · simp [hashesStep, GoMap.get?_set, GoMap.index, ht]
      · simp [hashesStep, GoMap.get?_set, GoMap.index, ht]
    · by_cases ht : pathsWith t h = []
      · simp [hashesStep, GoMap.get?_set, GoMap.index, ht, he]
      · simp [hashesStep, GoMap.get?_set, GoMap.index, ht, he]

theorem hashesOf_get? (f : FileList) (h : String) :
    GoMap.get? (hashesOf f) h = if pathsWith f h = [] then none else some (pathsWith f h) := by
  simp [hashesOf, foldl_hashesStep_get?, GoMap.get?, GoMap.index]

theorem hashesOf_WF (f : FileList) : GoMap.WF (hashesOf f) :=
  foldl_hashesStep_WF f [] (by simp [GoMap.WF, GoMap.keys])

theorem mem_hashesOf_iff (f : FileList) (h : String) (g : List String) :
    (h, g) ∈ hashesOf f ↔ g = pathsWith f h ∧ g ≠ [] := by
  constructor
  · intro hm
    have := GoMap.get?_of_mem _ (hashesOf_WF f) h g hm
    rw [hashesOf_get?] at this
    by_cases hp : pathsWith f h = []
    · simp [hp] at this
    · simp only [hp, if_false, Option.some.injEq] at this
      exact ⟨this.symm, this ▸ hp⟩
  · rintro ⟨rfl, hne⟩
    apply GoMap.mem_of_get?
    rw [hashesOf_get?, if_neg hne]

theorem mem_pathsWith_iff (f : FileList) (h p : String) :
    p ∈ pathsWith f h ↔ ∃ d, (p, d) ∈ f ∧ hex d = h := by
  simp [pathsWith]

theorem mem_digestClass_iff (f : FileList) (d : Digest) (p : String) :
    p ∈ digestClass f d ↔ ∃ d', (p, d') ∈ f ∧ bytesEqual d' d = true := by
  simp [digestClass]

theorem mem_Duplicates_iff (f : FileList) (g : List String) :
    g ∈ FileList.Duplicates f ↔ ∃ d, g = digestClass f d ∧ 2 ≤ g.length := by
  unfold FileList.Duplicates
  rw [List.mem_filterMap]
  constructor
  · rintro ⟨⟨h, g'⟩, hm, hg⟩
    obtain ⟨rfl, hne⟩ := (mem_hashesOf_iff f h g').1 hm
    by_cases h1 : (pathsWith f h).length = 1
    · simp [h1] at hg
    · simp only [h1, if_false, Option.some.injEq] at hg
      subst hg
      obtain ⟨p, hp⟩ := List.exists_mem_of_ne_nil _ hne
      obtain ⟨d, -, rfl⟩ := (mem_pathsWith_iff f h p).1 hp
      refine ⟨d, pathsWith_hex f d, ?_⟩
      have := List.length_pos_of_ne_nil hne
      omega
  · rintro ⟨d, rfl, hlen⟩
    refine ⟨(hex d, digestClass f d), ?_, ?_⟩
    · rw [mem_hashesOf_iff, pathsWith_hex]
      refine ⟨rfl, fun h0 => ?_⟩
      rw [h0] at hlen
      simp at hlen
    · have : ¬ (digestClass f d).length = 1 := by omega
      simp [this]

theorem mem_unique_of_WF (f : FileList) (hwf : GoMap.WF f) (p : String) (d d' : Digest)
    (h : (p, d) ∈ f) (h' : (p, d') ∈ f) : d = d' := by
  have h1 := GoMap.get?_of_mem f hwf p d h
  have h2 := GoMap.get?_of_mem f hwf p d' h'
  rw [h1] at h2
  exact Option.some.inj h2

theorem digestClass_congr (f : FileList) (d d' : Digest) (h : bytesEqual d d' = true) :
    digestClass f d = digestClass f d' := by
  unfold digestClass
  congr 1
  apply List.filter_congr
  intro e _
  simp only [bytesEqual, decide_eq_true_eq] at h
  simp [bytesEqual, h]

theorem digestClass_nodup (f : FileList) (hwf : GoMap.WF f) (d : Digest) :
    (digestClass f d).Nodup :=
  List.Nodup.sublist (List.Sublist.map Prod.fst (List.filter_sublist f)) hwf

theorem group_eq_digestClass (f : FileList) (hwf : GoMap.WF f) (p : String) (d : Digest)
    (hp : (p, d) ∈ f) (g : List String) (hg : g ∈ FileList.Duplicates f) (hpg : p ∈ g) :
    g = digestClass f d := by
  obtain ⟨d0, rfl, -⟩ := (mem_Duplicates_iff f g).1 hg
  obtain ⟨d', hd', he⟩ := (mem_digestClass_iff f d0 p).1 hpg
  rw [mem_unique_of_WF f hwf p d d' hp hd']
  exact (digestClass_congr f d' d0 he).symm

theorem Duplicates_nodup (f : FileList) (hwf : GoMap.WF f) : (FileList.Duplicates f).Nodup := by
  unfold FileList.Duplicates
  have hH : List.Pairwise (fun e1 e2 : String × List String => e1.1 ≠ e2.1) (hashesOf f) :=
    List.pairwise_map.1 (hashesOf_WF f)
  refine List.Pairwise.filterMap _ ?_ (List.Pairwise.and_mem.1 hH)
  rintro ⟨h1, g1⟩ ⟨h2, g2⟩ ⟨hm1, hm2, hne⟩ b hb b' hb' heq
  subst heq
  have e1 : g1 = b := by
    by_cases hl : g1.length = 1
    · simp [hl] at hb
    · simpa [hl] using hb
  have e2 : g2 = b := by
    by_cases hl : g2.length = 1
    · simp [hl] at hb'
    · simpa [hl] using hb'
  subst e1
  obtain ⟨hg1, hne1⟩ := (mem_hashesOf_iff f h1 g1).1 hm1
  obtain ⟨hg2, -⟩ := (mem_hashesOf_iff f h2 g2).1 hm2
  obtain ⟨p, hp⟩ := List.exists_mem_of_ne_nil _ hne1
  have hp1 := hp
  rw [hg1] at hp1
  have hp2 := hp
  rw [← e2, hg2] at hp2
  obtain ⟨d1, hd1, rfl⟩ := (mem_pathsWith_iff f h1 p).1 hp1
  obtain ⟨d2, hd2, rfl⟩ := (mem_pathsWith_iff f h2 p).1 hp2
  exact hne (by rw [mem_unique_of_WF f hwf p d1 d2 hd1 hd2])

theorem two_le_length_iff_exists_ne (l : List String) (hl : l.Nodup) (p : String) (hp : p ∈ l) :
    2 ≤ l.length ↔ ∃ q ∈ l, q ≠ p := by
  constructor
  · intro h
    by_contra hcon
    push_neg at hcon
    match l, hl, h, hcon with
    | a :: b :: t, hl, _, hcon =>
      have ha := hcon a (by simp)
      have hb := hcon b (by simp)
      rw [ha, hb] at hl
      simp at hl
  · rintro ⟨q, hq, hne⟩
    match l, hp, hq with
    | [], hp, _ => simp at hp
    | [a], hp, hq =>
      simp only [List.mem_singleton] at hp hq
      exact absurd (hq.trans hp.symm) hne
    | _ :: _ :: _, _, _ => simp

theorem in_group_iff (f : FileList) (hwf : GoMap.WF f) (p : String) (d : Digest)
    (hp : (p, d) ∈ f) :
    (∃ g ∈ FileList.Duplicates f, p ∈ g) ↔ 2 ≤ (digestClass f d).length := by
  constructor
  · rintro ⟨g, hg, hpg⟩
    have := group_eq_digestClass f hwf p d hp g hg hpg
    obtain ⟨d0, -, hlen⟩ := (mem_Duplicates_iff f g).1 hg
    rwa [this] at hlen
  · intro h
    exact ⟨digestClass f d, (mem_Duplicates_iff f _).2 ⟨d, rfl, h⟩,
      (mem_digestClass_iff f d p).2 ⟨d, hp, bytesEqual_self d⟩⟩

theorem countP_eq_one_of_mem {α : Type} [DecidableEq α] (l : List α) (hl : l.Nodup) (a : α)
    (ha : a ∈ l) : l.countP (fun x => decide (x = a)) = 1 := by
  induction l with
  | nil => simp at ha
  | cons x t ih =>
    rw [List.nodup_cons] at hl
    by_cases hx : x = a
    · subst hx
      have h0 : t.countP (fun y => decide (y = x)) = 0 := by
        rw [List.countP_eq_zero]
        intro y hy
        simp only [decide_eq_true_eq]
        exact fun h => hl.1 (h ▸ hy)
      simp [List.countP_cons, h0]
    · have hat : a ∈ t := by
        rcases List.mem_cons.1 ha with h | h
        · exact absurd h.symm hx
        · exact h
      simp [List.countP_cons, hx, ih hl.2 hat]

theorem bytesEqual_Skipped_iff (d : Digest) : bytesEqual d Skipped = true ↔ d = Skipped := by
  cases d with
  | none => simp [bytesEqual, Skipped, noHashComputed]
  | some x => simp [bytesEqual, Skipped]

/-- C3: for an index `f`, the groups printed by `f.Duplicates()` are exactly the
digest classes (the paths of `f` with byte-wise equal digests) of two or more
members: each such class is printed exactly once, a printed group that contains a
path is the whole class of that path's digest, and a path whose digest no other
path shares is in no printed group. -/
theorem Duplicates_digest_classes (f : FileList) (hwf : GoMap.WF f) :
    (∀ g, g ∈ FileList.Duplicates f ↔ ∃ d, g = digestClass f d ∧ 2 ≤ g.length) ∧
    (∀ d, 2 ≤ (digestClass f d).length →
      (FileList.Duplicates f).countP (fun g => decide (g = digestClass f d)) = 1) ∧
    (∀ p d, (p, d) ∈ f → ∀ g ∈ FileList.Duplicates f, p ∈ g → g = digestClass f d) ∧
    (∀ p d, (p, d) ∈ f → (∀ q d', (q, d') ∈ f → bytesEqual d' d = true → q = p) →
      ∀ g ∈ FileList.Duplicates f, p ∉ g) ∧
    (∀ d, (digestClass f d).Nodup) := by
  refine ⟨mem_Duplicates_iff f, ?_, ?_, ?_, digestClass_nodup f hwf⟩
  · intro d hlen
    exact countP_eq_one_of_mem _ (Duplicates_nodup f hwf) _
      ((mem_Duplicates_iff f _).2 ⟨d, rfl, hlen⟩)
  · intro p d hp g hg hpg
    exact group_eq_digestClass f hwf p d hp g hg hpg
  · intro p d hp honly g hg hpg
    have h2 := (in_group_iff f hwf p d hp).1 ⟨g, hg, hpg⟩
    have hmem : p ∈ digestClass f d :=
      (mem_digestClass_iff f d p).2 ⟨d, hp, bytesEqual_self d⟩
    obtain ⟨q, hq, hne⟩ :=
      (two_le_length_iff_exists_ne _ (digestClass_nodup f hwf d) p hmem).1 h2
    obtain ⟨d', hd', he⟩ := (mem_digestClass_iff f d q).1 hq
    exact hne (honly q d' hd' he)

/-- C3 at `f = {a.txt: [1], b.txt: [1], c.txt: [2]}`: the class of `[1]` is
printed once. -/
theorem Duplicates_digest_classes_witness :
    (FileList.Duplicates [("a.txt", some [1]), ("b.txt", some [1]), ("c.txt", some [2])]).countP
      (fun g => decide (g =
        digestClass [("a.txt", some [1]), ("b.txt", some [1]), ("c.txt", some [2])] (some [1]))) = 1 :=
  (Duplicates_digest_classes [("a.txt", some [1]), ("b.txt", some [1]), ("c.txt", some [2])]
    (by decide)).2.1 (some [1]) (by decide)

theorem Duplicates_example :
    FileList.Duplicates [("a.txt", some [1]), ("b.txt", some [1]), ("c.txt", some [2])] =
      [["a.txt", "b.txt"]] := by
  decide

/-- C7 (amended): `Duplicates` treats the `Skipped` marker as an ordinary digest: a
path of `f` whose digest is `Skipped` is in a printed group exactly when some other
path of `f` carries `Skipped` too (so in none when it is the only one). -/
theorem Duplicates_skipped (f : FileList) (hwf : GoMap.WF f) (p : String)
    (hp : (p, Skipped) ∈ f) :
    (∃ g ∈ FileList.Duplicates f, p ∈ g) ↔ ∃ q, q ≠ p ∧ (q, Skipped) ∈ f := by
  rw [in_group_iff f hwf p Skipped hp]
  have hmem : p ∈ digestClass f Skipped :=
    (mem_digestClass_iff f Skipped p).2 ⟨Skipped, hp, bytesEqual_self _⟩
  rw [two_le_length_iff_exists_ne _ (digestClass_nodup f hwf Skipped) p hmem]
  constructor
  · rintro ⟨q, hq, hne⟩
    obtain ⟨d', hd', he⟩ := (mem_digestClass_iff f Skipped q).1 hq
    rw [(bytesEqual_Skipped_iff d').1 he] at hd'
    exact ⟨q, hne, hd'⟩
  · rintro ⟨q, hne, hq⟩
    exact ⟨q, (mem_digestClass_iff f Skipped q).2 ⟨Skipped, hq, bytesEqual_self _⟩, hne⟩

/-- C7 at `f = {a: Skipped, b: [1]}`: `a` is in no printed group. -/
theorem Duplicates_skipped_witness :
    ¬ ∃ g ∈ FileList.Duplicates [("a", Skipped), ("b", some [1])], "a" ∈ g := fun h => by
  obtain ⟨q, hne, hq⟩ :=
    (Duplicates_skipped [("a", Skipped), ("b", some [1])] (by decide) "a" (by decide)).1 h
  simp only [List.mem_cons, Prod.mk.injEq, List.mem_singleton, List.not_mem_nil, or_false] at hq
  rcases hq with ⟨h1, -⟩ | ⟨-, h2⟩
  · exact hne h1
  · exact absurd h2 (by decide)

/-- C7 (as stated) fails: in `f = {a: Skipped, b: Skipped}` both paths carry the
marker and `Duplicates` prints the group `[a b]`. -/
theorem Duplicates_skipped_counterexample :
    FileList.Duplicates [("a", Skipped), ("b", Skipped)] = [["a", "b"]] := by
  decide

/-! ## The population loop of `listFiles` -/

theorem populateTask_eq_some (L : String → String) (H : String → Option Digest) (r : String)
    (st st1 : Population) (p : String) (h : populateTask L H r st p = some st1) :
    ∃ d, H (r ++ p) = some d ∧ st1.list2 = GoMap.set st.list2 (L p) d ∧
      st1.collisions =
        if (GoMap.get? st.list2 (L p)).isSome then st.collisions ++ [L p] else st.collisions := by
  unfold populateTask at h
  cases hd : H (r ++ p) with
  | none => simp [hd] at h
  | some d =>
    simp only [hd, Option.some.injEq] at h
    subst h
    exact ⟨d, rfl, rfl, rfl⟩

theorem foldlM_populateTask_cons (L : String → String) (H : String → Option Digest) (r : String)
    (st st' : Population) (p : String) (t : List String)
    (h : (p :: t).foldlM (populateTask L H r) st = some st') :
    ∃ st1, populateTask L H r st p = some st1 ∧ t.foldlM (populateTask L H r) st1 = some st' := by
  rw [List.foldlM_cons] at h
  cases hs : populateTask L H r st p with
  | none => simp [hs] at h
  | some st1 =>
    rw [hs] at h
    exact ⟨st1, rfl, h⟩

theorem foldlM_populateTask_isSome (L : String → String) (H : String → Option Digest)
    (r : String) (ps : List String) (st : Population)
    (hok : ∀ p ∈ ps, (H (r ++ p)).isSome = true) :
    ∃ st', ps.foldlM (populateTask L H r) st = some st' := by
  induction ps generalizing st with
  | nil => exact ⟨st, rfl⟩
  | cons p t ih =>
    rw [List.foldlM_cons]
    obtain ⟨d, hd⟩ := Option.isSome_iff_exists.1 (hok p (by simp))
    have hs : populateTask L H r st p = some ⟨GoMap.set st.list2 (L p) d,
        if (GoMap.get? st.list2 (L p)).isSome then st.collisions ++ [L p] else st.collisions⟩ := by
      simp [populateTask, hd]
    rw [hs]
    exact ih _ fun q hq => hok q (List.mem_cons_of_mem _ hq)

theorem foldlM_populateTask_WF (L : String → String) (H : String → Option Digest)
    (r : String) (ps : List String) (st st' : Population)
    (h : ps.foldlM (populateTask L H r) st = some st') (hwf : GoMap.WF st.list2) :
    GoMap.WF st'.list2 := by
  induction ps generalizing st with
  | nil =>
    simp only [List.foldlM_nil, pure, Option.some.injEq] at h
    exact h ▸ hwf
  | cons p t ih =>
    obtain ⟨st1, h1, h2⟩ := foldlM_populateTask_cons L H r st st' p t h
    obtain ⟨d, -, hl, -⟩ := populateTask_eq_some L H r st st1 p h1
    exact ih st1 h2 (hl ▸ GoMap.WF_set _ _ _ hwf)

theorem foldlM_populateTask_length (L : String → String) (H : String → Option Digest)
    (r : String) (ps : List String) (st st' : Population)
    (h : ps.foldlM (populateTask L H r) st = some st') :
    st'.collisions.length + st'.list2.length =
      st.collisions.length + st.list2.length + ps.length := by
  induction ps generalizing st with
  | nil =>
    simp only [List.foldlM_nil, pure, Option.some.injEq] at h
    subst h
    rfl
  | cons p t ih =>
    obtain ⟨st1, h1, h2⟩ := foldlM_populateTask_cons L H r st st' p t h
    obtain ⟨d, -, hl, hc⟩ := populateTask_eq_some L H r st st1 p h1
    rw [ih st1 h2, hl, hc, GoMap.length_set]
    by_cases hk : (GoMap.get? st.list2 (L p)).isSome = true
    · simp only [hk, if_true, List.length_append, List.length_cons, List.length_nil]
      omega
    · rw [Bool.not_eq_true] at hk
      rw [hk]
      simp only [Bool.false_eq_true, if_false, List.length_cons]
      omega

theorem foldlM_populateTask_count (L : String → String) (H : String → Option Digest)
    (r : String) (ps : List String) (st st' : Population)
    (h : ps.foldlM (populateTask L H r) st = some st') (k : String) :
    st'.collisions.countP (fun w => decide (w = k)) +
        (if (GoMap.get? st'.list2 k).isSome then 1 else 0) =
      st.collisions.countP (fun w => decide (w = k)) +
        (if (GoMap.get? st.list2 k).isSome then 1 else 0) +
        ps.countP (fun p => decide (L p = k)) := by
  induction ps generalizing st with
  | nil =>
    simp only [List.foldlM_nil, pure, Option.some.injEq] at h
    subst h
    simp
  | cons p t ih =>
    obtain ⟨st1, h1, h2⟩ := foldlM_populateTask_cons L H r st st' p t h
    obtain ⟨d, -, hl, hc⟩ := populateTask_eq_some L H r st st1 p h1
    rw [ih st1 h2, hl, hc, GoMap.get?_set, List.countP_cons]
    by_cases hk : L p = k
    · subst hk
      cases hg : GoMap.get? st.list2 (L p) with
      | none =>
        simp
        omega
      | some d0 =>
        simp only [Option.isSome_some, if_true, List.countP_append, List.countP_cons,
          List.countP_nil, decide_True]
        omega
    · cases hg : (GoMap.get? st.list2 (L p)).isSome with
      | false => simp [hk]
      | true => simp [hk, List.countP_append, List.countP_cons]

theorem foldlM_populateTask_get? (L : String → String) (H : String → Option Digest)
    (r : String) (ps : List String) (st st' : Population)
    (h : ps.foldlM (populateTask L H r) st = some st') (k : String) :
    GoMap.get? st'.list2 k =
      (((ps.filter fun p => decide (L p = k)).getLast?).map fun p => H (r ++ p)).getD
        (GoMap.get? st.list2 k) := by
  induction ps generalizing st with
  | nil =>
    simp only [List.foldlM_nil, pure, Option.some.injEq] at h
    subst h
    simp
  | cons p t ih =>
    obtain ⟨st1, h1, h2⟩ := foldlM_populateTask_cons L H r st st' p t h
    obtain ⟨d, hd, hl, -⟩ := populateTask_eq_some L H r st st1 p h1
    rw [ih st1 h2, hl, GoMap.get?_set]
    by_cases hk : L p = k
    · simp only [hk, if_true, List.filter_cons, decide_True, List.getLast?_cons]
      cases (List.filter (fun p => decide (L p = k)) t).getLast? with
      | none => simp [hd]
      | some q => simp
    · simp [hk, List.filter_cons]

theorem foldlM_populateTask_collisions (L : String → String) (H : String → Option Digest)
    (r : String) (ps : List String) (st st' : Population) (seen : List String)
    (h : ps.foldlM (populateTask L H r) st = some st')
    (hseen : ∀ k, k ∈ seen ↔ (GoMap.get? st.list2 k).isSome = true) :
    st'.collisions = st.collisions ++ warningsFor L seen ps := by
  induction ps generalizing st seen with
  | nil =>
    simp only [List.foldlM_nil, pure, Option.some.injEq] at h
    subst h
    simp [warningsFor]
  | cons p t ih =>
    obtain ⟨st1, h1, h2⟩ := foldlM_populateTask_cons L H r st st' p t h
    obtain ⟨d, -, hl, hc⟩ := populateTask_eq_some L H r st st1 p h1
    have hseen1 : ∀ k, k ∈ L p :: seen ↔ (GoMap.get? st1.list2 k).isSome = true := by
      intro k
      rw [hl, GoMap.get?_set, List.mem_cons, hseen]
      by_cases hk : L p = k
      · simp [hk]
      · have hk' : ¬ k = L p := fun e => hk e.symm
        simp [hk, hk']
    rw [ih st1 (L p :: seen) h2 hseen1, hc, warningsFor]
    by_cases hm : L p ∈ seen
    · have := (hseen (L p)).1 hm
      simp [hm, this]
    · have : ¬ (GoMap.get? st.list2 (L p)).isSome = true := fun e => hm ((hseen (L p)).2 e)
      simp [hm, this]

theorem populate_get? (L : String → String) (H : String → Option Digest) (r : String)
    (ps : List String) (st : Population) (h : populate L H r ps = some st) (k : String) :
    GoMap.get? st.list2 k =
      ((ps.filter fun p => decide (L p = k)).getLast?).bind fun p => H (r ++ p) := by
  rw [foldlM_populateTask_get? L H r ps ⟨[], []⟩ st h k]
  cases (List.filter (fun p => decide (L p = k)) ps).getLast? <;> simp [GoMap.get?]

theorem populate_get?_some (L : String → String) (H : String → Option Digest) (r : String)
    (ps : List String) (st : Population) (h : populate L H r ps = some st) (k : String)
    (d : Digest) (hd : GoMap.get? st.list2 k = some d) :
    ∃ p ∈ ps, L p = k ∧ H (r ++ p) = some d := by
  rw [populate_get? L H r ps st h k] at hd
  cases hq : (List.filter (fun p => decide (L p = k)) ps).getLast? with
  | none => simp [hq] at hd
  | some q =>
    have hm := List.mem_of_getLast?_eq_some hq
    rw [List.mem_filter, decide_eq_true_eq] at hm
    rw [hq] at hd
    exact ⟨q, hm.1, hm.2, hd⟩

theorem populate_mem_keys (L : String → String) (H : String → Option Digest) (r : String)
    (ps : List String) (st : Population) (h : populate L H r ps = some st)
    (hok : ∀ p ∈ ps, (H (r ++ p)).isSome = true) (k : String) :
    k ∈ GoMap.keys st.list2 ↔ ∃ p ∈ ps, L p = k := by
  rw [← GoMap.get?_isSome_iff, populate_get? L H r ps st h k]
  constructor
  · intro hs
    cases hq : (List.filter (fun p => decide (L p = k)) ps).getLast? with
    | none => simp [hq] at hs
    | some q =>
      have hm := List.mem_of_getLast?_eq_some hq
      rw [List.mem_filter, decide_eq_true_eq] at hm
      exact ⟨q, hm.1, hm.2⟩
  · rintro ⟨p, hp, hk⟩
    cases hq : (List.filter (fun p => decide (L p = k)) ps).getLast? with
    | none =>
      rw [List.getLast?_eq_none_iff] at hq
      have : p ∈ List.filter (fun p => decide (L p = k)) ps :=
        List.mem_filter.2 ⟨hp, by simpa using hk⟩
      rw [hq] at this
      simp at this
    | some q =>
      have hm := List.mem_of_getLast?_eq_some hq
      rw [List.mem_filter] at hm
      simpa using hok q hm.1

/-- C9: when every hashing task returns, the population loop over the discovered
paths, in any processing order `ps`, ends with an index and a list of collision
warnings such that: the warnings are, in order, one warning naming the lower-cased
path for each path whose lower-cased form is that of a path processed before; for
every key the number of warnings naming it is the number of paths lower-casing to
it, less one for the entry it keeps; the number of warnings is the number of
paths minus the number of keys; each key holds the digest of the last processed
path lower-casing to it.  Two paths that lower-case to one key give one warning
and one entry, with the digest of the second. -/
theorem populate_collisions (L : String → String) (H : String → Option Digest) (r : String)
    (ps : List String) (hok : ∀ p ∈ ps, (H (r ++ p)).isSome = true) :
    (∃ st, populate L H r ps = some st ∧
      st.collisions = warningsFor L [] ps ∧
      (∀ k, st.collisions.countP (fun w => decide (w = k)) +
          (if k ∈ GoMap.keys st.list2 then 1 else 0) = ps.countP (fun p => decide (L p = k))) ∧
      st.collisions.length = ps.length - (GoMap.keys st.list2).length ∧
      (GoMap.keys st.list2).length ≤ ps.length ∧
      GoMap.WF st.list2 ∧
      (∀ k, k ∈ GoMap.keys st.list2 ↔ ∃ p ∈ ps, L p = k) ∧
      (∀ k, GoMap.get? st.list2 k =
        ((ps.filter fun p => decide (L p = k)).getLast?).bind fun p => H (r ++ p))) ∧
    (∀ p q dp dq, H (r ++ p) = some dp → H (r ++ q) = some dq → L p = L q →
      populate L H r [p, q] = some ⟨[(L q, dq)], [L q]⟩) := by
  constructor
  · obtain ⟨st, hst⟩ := foldlM_populateTask_isSome L H r ps ⟨[], []⟩ hok
    have hlen := foldlM_populateTask_length L H r ps ⟨[], []⟩ st hst
    simp only [List.length_nil, Nat.zero_add] at hlen
    have hkl : (GoMap.keys st.list2).length = st.list2.length := by simp [GoMap.keys]
    refine ⟨st, hst, ?_, ?_, ?_, ?_, ?_, populate_mem_keys L H r ps st hst hok,
      populate_get? L H r ps st hst⟩
    · simpa using foldlM_populateTask_collisions L H r ps ⟨[], []⟩ st [] hst
        (by simp [GoMap.get?])
    · intro k
      have := foldlM_populateTask_count L H r ps ⟨[], []⟩ st hst k
      simp only [List.countP_nil, GoMap.get?, Option.isSome_none, Bool.false_eq_true, if_false,
        Nat.zero_add, Nat.add_zero] at this
      rw [← this]
      by_cases hk : k ∈ GoMap.keys st.list2
      · simp [hk, (GoMap.get?_isSome_iff st.list2 k).2 hk]
      · have : ¬ (GoMap.get? st.list2 k).isSome = true :=
          fun e => hk ((GoMap.get?_isSome_iff st.list2 k).1 e)
        simp [hk, this]
    · omega
    · omega
    · exact foldlM_populateTask_WF L H r ps ⟨[], []⟩ st hst (by simp [GoMap.WF, GoMap.keys])
  · intro p q dp dq hp hq hL
    simp [populate, populateTask, hp, hq, hL, GoMap.set, GoMap.get?]

/-- C9 at the paths `/A.txt`, `/a.txt` under the root `/r`: the run returns and
its warnings are those the specification words. -/
theorem populate_collisions_witness :
    ∃ st, populate asciiLower exampleHash "/r" ["/A.txt", "/a.txt"] = some st ∧
      st.collisions = warningsFor asciiLower [] ["/A.txt", "/a.txt"] ∧
      st.collisions.length = 2 - (GoMap.keys st.list2).length := by
  obtain ⟨st, h1, h2, -, h4, -⟩ :=
    (populate_collisions asciiLower exampleHash "/r" ["/A.txt", "/a.txt"]
      (fun p _ => by unfold exampleHash; split <;> rfl)).1
  exact ⟨st, h1, h2, h4⟩

/-- C8 (amended): when every hashing task returns, two processing orders of the
same discovered paths both return; each index has as keys exactly the lower-cased
discovered paths, each key once, and holds under every key the digest of the path
inserted last among those lower-casing to it; so the two indexes have the same
keys, and they hold the same digest under every key (they are the same map)
provided that discovered paths lower-casing to the same key have the same
digest. -/
theorem populate_order (L : String → String) (H : String → Option Digest) (r : String)
    (ps ps' : List String) (hperm : ps.Perm ps')
    (hok : ∀ p ∈ ps, (H (r ++ p)).isSome = true) :
    ∃ st st', populate L H r ps = some st ∧ populate L H r ps' = some st' ∧
      (∀ k, k ∈ GoMap.keys st.list2 ↔ ∃ p ∈ ps, L p = k) ∧
      (∀ k, k ∈ GoMap.keys st.list2 ↔ k ∈ GoMap.keys st'.list2) ∧
      GoMap.WF st.list2 ∧ GoMap.WF st'.list2 ∧
      (∀ k, GoMap.get? st.list2 k =
        ((ps.filter fun p => decide (L p = k)).getLast?).bind fun p => H (r ++ p)) ∧
      (∀ k, GoMap.get? st'.list2 k =
        ((ps'.filter fun p => decide (L p = k)).getLast?).bind fun p => H (r ++ p)) ∧
      ((∀ p ∈ ps, ∀ q ∈ ps, L p = L q → H (r ++ p) = H (r ++ q)) →
        (∀ k, GoMap.get? st.list2 k = GoMap.get? st'.list2 k) ∧
        (∀ e, e ∈ st.list2 ↔ e ∈ st'.list2)) := by
  have hok' : ∀ p ∈ ps', (H (r ++ p)).isSome = true := fun p hp => hok p (hperm.mem_iff.2 hp)
  obtain ⟨st, hst⟩ := foldlM_populateTask_isSome L H r ps ⟨[], []⟩ hok
  obtain ⟨st', hst'⟩ := foldlM_populateTask_isSome L H r ps' ⟨[], []⟩ hok'
  have hwf := foldlM_populateTask_WF L H r ps ⟨[], []⟩ st hst (by simp [GoMap.WF, GoMap.keys])
  have hwf' := foldlM_populateTask_WF L H r ps' ⟨[], []⟩ st' hst' (by simp [GoMap.WF, GoMap.keys])
  have hkeys : ∀ k, k ∈ GoMap.keys st.list2 ↔ k ∈ GoMap.keys st'.list2 := by
    intro k
    rw [populate_mem_keys L H r ps st hst hok, populate_mem_keys L H r ps' st' hst' hok']
    constructor
    · rintro ⟨p, hp, hk⟩
      exact ⟨p, hperm.mem_iff.1 hp, hk⟩
    · rintro ⟨p, hp, hk⟩
      exact ⟨p, hperm.mem_iff.2 hp, hk⟩
  refine ⟨st, st', hst, hst', populate_mem_keys L H r ps st hst hok, hkeys, hwf, hwf',
    populate_get? L H r ps st hst, populate_get? L H r ps' st' hst', ?_⟩
  intro hcons
  have hget : ∀ k, GoMap.get? st.list2 k = GoMap.get? st'.list2 k := by
    intro k
    cases h1 : GoMap.get? st.list2 k with
    | none =>
      have hnk := (GoMap.get?_eq_none_iff st.list2 k).1 h1
      rw [hkeys] at hnk
      exact ((GoMap.get?_eq_none_iff st'.list2 k).2 hnk).symm
    | some d =>
      obtain ⟨p, hp, hk, hd⟩ := populate_get?_some L H r ps st hst k d h1
      cases h2 : GoMap.get? st'.list2 k with
      | none =>
        have hnk := (GoMap.get?_eq_none_iff st'.list2 k).1 h2
        rw [← hkeys, ← GoMap.get?_eq_none_iff, h1] at hnk
        cases hnk
      | some d' =>
        obtain ⟨q, hq, hk', hd'⟩ := populate_get?_some L H r ps' st' hst' k d' h2
        have := hcons p hp q (hperm.mem_iff.2 hq) (hk.trans hk'.symm)
        rw [hd, hd'] at this
        exact this
  refine ⟨hget, ?_⟩
  rintro ⟨k, d⟩
  constructor
  · intro he
    apply GoMap.mem_of_get?
    rw [← hget]
    exact GoMap.get?_of_mem _ hwf k d he
  · intro he
    apply GoMap.mem_of_get?
    rw [hget]
    exact GoMap.get?_of_mem _ hwf' k d he

/-- C8 at the paths `/B.txt`, `/b.txt` under the root `/r`, which lower-case to the
same key and have the same digest: both orders return, with the same digest under
every key, and under `/b.txt` the digest of 32 bytes `2`. -/
theorem populate_order_witness :
    ∃ st st', populate asciiLower exampleHash "/r" ["/B.txt", "/b.txt"] = some st ∧
      populate asciiLower exampleHash "/r" ["/b.txt", "/B.txt"] = some st' ∧
      (∀ k, k ∈ GoMap.keys st.list2 ↔ k ∈ GoMap.keys st'.list2) ∧
      (∀ k, GoMap.get? st.list2 k = GoMap.get? st'.list2 k) ∧
      (∀ e, e ∈ st.list2 ↔ e ∈ st'.list2) ∧
      GoMap.get? st.list2 "/b.txt" = some (some (List.replicate 32 2)) ∧
      GoMap.get? st'.list2 "/b.txt" = some (some (List.replicate 32 2)) := by
  obtain ⟨st, st', h1, h2, -, h3, -, -, h4, h5, h6⟩ :=
    populate_order asciiLower exampleHash "/r" ["/B.txt", "/b.txt"] ["/b.txt", "/B.txt"]
      (List.Perm.swap _ _ _) (fun p _ => by unfold exampleHash; split <;> rfl)
  have hcons : ∀ p ∈ ["/B.txt", "/b.txt"], ∀ q ∈ ["/B.txt", "/b.txt"],
      asciiLower p = asciiLower q → exampleHash ("/r" ++ p) = exampleHash ("/r" ++ q) := by
    decide
  refine ⟨st, st', h1, h2, h3, (h6 hcons).1, (h6 hcons).2, ?_, ?_⟩
  · rw [h4]
    decide
  · rw [h5]
    decide

/-- C8 (as stated) fails: `/A.txt` and `/a.txt` lower-case to the same key and
have different digests; processed in the order `/A.txt`, `/a.txt` the index holds
the digest of `/a.txt`, in the other order that of `/A.txt`. -/
theorem populate_order_counterexample :
    populate asciiLower exampleHash "/r" ["/A.txt", "/a.txt"] =
      some ⟨[("/a.txt", some (List.replicate 32 2))], ["/a.txt"]⟩ ∧
    populate asciiLower exampleHash "/r" ["/a.txt", "/A.txt"] =
      some ⟨[("/a.txt", some (List.replicate 32 1))], ["/a.txt"]⟩ := by
  decide

end Deduplicate
